import Mathlib

/-!
Verification of the token-frequency core of `dancizhanbi.py`
(weighted CJK / Latin span statistics).

The definitions below are a shallow embedding of the source:
pure functions over `List`/`String`/`ℚ`, with Python exceptions
(`IndexError`, `ZeroDivisionError`) rendered as `Except String`.
-/

set_option maxHeartbeats 1000000

set_option allowUnsafeReducibility true in
attribute [semireducible] Rat.mul Rat.inv Rat.add Rat.sub

namespace Zhanbi

/-- Characters matched by the source regex character class `[一-龥]`
(dancizhanbi.py line 12). -/
def isCJK (c : Char) : Bool := decide (0x4e00 ≤ c.toNat ∧ c.toNat ≤ 0x9fa5)

/-- Characters matched by the source regex character class `[a-zA-Z]`
(dancizhanbi.py line 44). -/
def isLatin (c : Char) : Bool :=
  decide ((65 ≤ c.toNat ∧ c.toNat ≤ 90) ∨ (97 ≤ c.toNat ∧ c.toNat ≤ 122))

/-- Scanner state for maximal runs: `cur` is the current run, reversed. -/
def runsAux (p : Char → Bool) (cur : List Char) : List Char → List (List Char)
  | [] => if cur = [] then [] else [cur.reverse]
  | c :: cs =>
      if p c then runsAux p (c :: cur) cs
      else if cur = [] then runsAux p [] cs
      else cur.reverse :: runsAux p [] cs

/-- `re.findall` of a one-character-class-plus pattern: the maximal runs of
characters satisfying `p`, in order of appearance. -/
def findallRuns (p : Char → Bool) (s : List Char) : List (List Char) := runsAux p [] s

/-- Python `range(a, b)` as a list. -/
def pyRange (a b : Nat) : List Nat := List.range' a (b - a)

/-- dancizhanbi.py lines 26-31: `for start in range(len(match))`,
`for end in range(start + 1, min(start + 11, len(match) + 1))`, keep
`match[start:end]` when its length is at least `min_length`. -/
def cjkSpansOfRun (m : List Char) (L : Nat) : List (List Char) :=
  (List.range m.length).flatMap fun start =>
    (pyRange (start + 1) (min (start + 11) (m.length + 1))).filterMap fun e =>
      let w := (m.drop start).take (e - start)
      if L ≤ w.length then some w else none

/-- One bucket of the `defaultdict(lambda: [0, set()])` accumulators: token
text, weighted count, provenance strings in first-insertion order (a model of
Python set membership). -/
structure Entry where
  tok : String
  count : ℚ
  prov : List String
deriving DecidableEq

/-- `set.add`: insert if not already present. -/
def insertProv (ps : List String) (p : String) : List String :=
  if p ∈ ps then ps else ps ++ [p]

/-- `word_count[word][0] += weight; word_count[word][1].add(prov)`: update the
bucket of `tok`, creating it on first sight (the defaultdict default `0 + w`),
keyed as an insertion-ordered dict. -/
def addToken (acc : List Entry) (tok : String) (w : ℚ) (prov : String) : List Entry :=
  match acc with
  | [] => [⟨tok, w, insertProv [] prov⟩]
  | e :: es =>
      if e.tok = tok then ⟨e.tok, e.count + w, insertProv e.prov prov⟩ :: es
      else e :: addToken es tok w prov

/-- Fold one record's emitted (token, provenance) pairs into the accumulator
with the record's weight, in emission order. -/
def foldTokens (w : ℚ) (pairs : List (String × String)) (acc : List Entry) : List Entry :=
  pairs.foldl (fun a tp => addToken a tp.1 w tp.2) acc

/-- dancizhanbi.py lines 24-31 (brute-force branch): the (token, provenance)
pairs emitted for one record, in loop order; provenance is the matched run. -/
def chineseBrutePairs (L : Nat) (line : String) : List (String × String) :=
  (findallRuns isCJK line.toList).flatMap fun m =>
    (cjkSpansOfRun m L).map fun wd => (String.mk wd, String.mk m)

/-- dancizhanbi.py lines 18-22 (`use_jieba` branch): every token of the
injected segmenter with length at least `min_length`; provenance is the whole
record. -/
def chineseSegPairs (seg : String → List String) (L : Nat) (line : String) :
    List (String × String) :=
  (seg line).filterMap fun word => if L ≤ word.length then some (word, line) else none

/-- The per-record emission of `process_chinese`, selected by `use_jieba`. -/
def chineseLinePairs (useSeg : Bool) (seg : String → List String) (L : Nat)
    (line : String) : List (String × String) :=
  if useSeg then chineseSegPairs seg L line else chineseBrutePairs L line

/-- Python `sep.join(l)`. -/
def joinBy (sep : String) : List String → String
  | [] => ""
  | [w] => w
  | w :: ws => w ++ sep ++ joinBy sep ws

/-- `re.findall('[a-zA-Z]+', line)`: the maximal ASCII-letter runs of one
record, in order; all words of a record land in one flat sequence (line 48). -/
def englishWords (line : String) : List String :=
  (findallRuns isLatin line.toList).map String.mk

/-- dancizhanbi.py lines 49-51: all spans `words[i:j]` with
`j - i ≥ min_word_count`, space-joined, in loop order. -/
def latinSpans (words : List String) (M : Nat) : List String :=
  (List.range words.length).flatMap fun i =>
    (pyRange (i + M) (words.length + 1)).map fun j =>
      joinBy (" ") ((words.drop i).take (j - i))

/-- The per-record emission of `process_english`; provenance is the
space-joined full word sequence of the record (line 53). -/
def englishLinePairs (M : Nat) (line : String) : List (String × String) :=
  let words := englishWords line
  (latinSpans words M).map fun tok => (tok, joinBy (" ") words)

/-- The per-record loop shared by `process_chinese` and `process_english`
(lines 13-15 and 45-47): the i-th record uses `weight_list[i]`; the i-th
weight is consumed in lockstep, and exhaustion of the weight list is Python's
`IndexError` on `weight_list[i]`. -/
def aggregate (pairsOf : String → List (String × String)) :
    List String → List ℚ → List Entry → Except String (List Entry)
  | [], _, acc => .ok acc
  | _ :: _, [], _ => .error ("IndexError")
  | line :: rest, w :: ws, acc =>
      aggregate pairsOf rest ws (foldTokens w (pairsOf line) acc)

/-- Round half to even to the nearest integer: the rounding used both by
Python's `:.2f` float formatting and by `round`. -/
def bankersRound (x : ℚ) : ℤ :=
  let f := ⌊x⌋
  if x - f < 1 / 2 then f
  else if 1 / 2 < x - f then f + 1
  else if f % 2 = 0 then f else f + 1

/-- Decimal rendering of `n` hundredths with exactly two digits after the
point. -/
def twoDecString (n : ℤ) : String :=
  let sign := if n < 0 then "-" else ""
  let a := n.natAbs
  let frac := a % 100
  sign ++ toString (a / 100) ++ "." ++
    (if frac < 10 then "0" ++ toString frac else toString frac)

/-- The f-string `{x:.2f}` followed by a percent sign (lines 36 and 58). -/
def pyFormatPct (x : ℚ) : String := twoDecString (bankersRound (x * 100)) ++ "%"

/-- One row of the result table:
`[word_num, word, count, proportion, language, original_words]`. -/
structure Row where
  tokenLength : Nat
  token : String
  count : ℚ
  proportion : String
  lang : String
  prov : String
deriving DecidableEq

/-- One output row of the Chinese projection loop (lines 33-38); a total
weight of 0 makes `count / total_rows` raise `ZeroDivisionError`. The length
column is `len(word)`, the character count. -/
def chineseRow (T : ℚ) (e : Entry) : Except String Row :=
  if T = 0 then .error ("ZeroDivisionError")
  else .ok ⟨e.tok.length, e.tok, e.count, pyFormatPct (e.count / T * 100),
    "中文", joinBy (", ") e.prov⟩

/-- Python `str.split()` with no argument: the maximal non-whitespace runs. -/
def pySplit (s : String) : List String :=
  (findallRuns (fun c => !c.isWhitespace) s.toList).map String.mk

/-- One output row of the English projection loop (lines 55-60): the length
column is `len(word.split())`, the space-separated word count. -/
def englishRow (T : ℚ) (e : Entry) : Except String Row :=
  if T = 0 then .error ("ZeroDivisionError")
  else .ok ⟨(pySplit e.tok).length, e.tok, e.count, pyFormatPct (e.count / T * 100),
    "英文", joinBy (", ") e.prov⟩

/-- The row-building loop over the accumulated dict, in insertion order; the
first failing entry aborts the loop. -/
def rowsOf (mk : Entry → Except String Row) : List Entry → Except String (List Row)
  | [] => .ok []
  | e :: es =>
      match mk e, rowsOf mk es with
      | .ok r, .ok rs => .ok (r :: rs)
      | .error msg, _ => .error msg
      | .ok _, .error msg => .error msg

/-- `process_chinese` (dancizhanbi.py lines 10-39). -/
def process_chinese (ds : List String) (ws : List ℚ) (T : ℚ) (L : Nat)
    (useSeg : Bool) (seg : String → List String) : Except String (List Row) :=
  match aggregate (chineseLinePairs useSeg seg L) ds ws [] with
  | .error msg => .error msg
  | .ok acc => rowsOf (chineseRow T) acc

/-- `process_english` (dancizhanbi.py lines 42-61). -/
def process_english (ds : List String) (ws : List ℚ) (T : ℚ) (M : Nat) :
    Except String (List Row) :=
  match aggregate (englishLinePairs M) ds ws [] with
  | .error msg => .error msg
  | .ok acc => rowsOf (englishRow T) acc

/-- Python string comparison: lexicographic by code point. -/
def strLtB : List Char → List Char → Bool
  | [], [] => false
  | [], _ :: _ => true
  | _ :: _, [] => false
  | c :: cs, d :: ds =>
      if c.toNat < d.toNat then true
      else if d.toNat < c.toNat then false
      else strLtB cs ds

/-- The key ordering of line 143,
`sort_values(by=[占比, token length], ascending=[False, False])`: the 占比
column holds the FORMATTED PERCENT STRINGS, so the primary comparison is
Python's lexicographic string comparison on those strings, descending; token
length descending breaks ties. -/
def rowOrder (a b : Row) : Prop :=
  strLtB b.proportion.toList a.proportion.toList = true ∨
    (a.proportion = b.proportion ∧ b.tokenLength ≤ a.tokenLength)

instance : DecidableRel rowOrder := fun a b => by
  unfold rowOrder; infer_instance

/-- Line 143 as a comparison sort by `rowOrder` (a stable sort, matching the
stable multi-key sort used on the data frame). -/
def sortRows (l : List Row) : List Row := List.insertionSort rowOrder l

/-- The core pipeline of `main` (lines 134-143): total weight
`total_rows = sum(weight_list)`, the two process calls, concatenation of the
Chinese rows with the English rows, and the final sort. -/
def analyze (ds : List String) (ws : List ℚ) (L M : Nat)
    (useSeg : Bool) (seg : String → List String) : Except String (List Row) :=
  match process_chinese ds ws ws.sum L useSeg seg with
  | .error msg => .error msg
  | .ok c =>
      match process_english ds ws ws.sum M with
      | .error msg => .error msg
      | .ok e => .ok (sortRows (c ++ e))

/-- A pandas scalar as far as the weight column is concerned: a finite
rational, one of the two infinities, or NaN. -/
inductive PyNum where
  | finite : ℚ → PyNum
  | posInf : PyNum
  | negInf : PyNum
  | nan : PyNum
deriving DecidableEq

/-- Value of a digit string (most significant first). -/
def digitsVal (cs : List Char) : ℚ :=
  cs.foldl (fun n c => n * 10 + ((c.toNat - 48 : ℕ) : ℚ)) 0

/-- Split a character list at every occurrence of the separator character
(the semantics of `str.split(sep)` for a one-character separator). -/
def splitOnChar (sep : Char) (cur : List Char) : List Char → List (List Char)
  | [] => [cur.reverse]
  | c :: cs =>
      if c = sep then cur.reverse :: splitOnChar sep [] cs
      else splitOnChar sep (c :: cur) cs

/-- `pd.to_numeric(col, errors='coerce')` on one raw cell (line 129): a
missing cell is NaN; a string is parsed as an optionally signed integer or
decimal, or as `inf` / `infinity` / `nan` (case-insensitive); every other
string coerces to NaN. (Exponent notation, which no claim exercises, is not
modelled.) -/
def toNumericCell (cell : Option String) : PyNum :=
  match cell with
  | none => .nan
  | some s =>
    let sb : Bool × List Char :=
      match s.toList with
      | '-' :: rest => (true, rest)
      | '+' :: rest => (false, rest)
      | cs => (false, cs)
    let neg := sb.1
    let body := sb.2
    let lower := body.map Char.toLower
    if lower = ("inf").toList ∨ lower = ("infinity").toList then
      if neg then .negInf else .posInf
    else if lower = ("nan").toList then .nan
    else
      match splitOnChar ('.') [] body with
      | [ip] =>
          if ip ≠ [] ∧ ip.all Char.isDigit then
            .finite (if neg then -(digitsVal ip) else digitsVal ip)
          else .nan
      | [ip, fp] =>
          if (ip ++ fp) ≠ [] ∧ (ip ++ fp).all Char.isDigit then
            let q := digitsVal ip + digitsVal fp / ((10 : ℚ) ^ fp.length)
            .finite (if neg then -q else q)
          else .nan
      | _ => .nan

/-- `.fillna(1)`: NaN becomes 1.0, every other value is kept (line 129). -/
def fillna1 (v : PyNum) : PyNum := if v = .nan then .finite 1 else v

/-- The weight resolver of line 129:
`pd.to_numeric(df[weight_column], errors='coerce').fillna(1).tolist()`. -/
def resolveWeights (col : List (Option String)) : List PyNum :=
  col.map fun c => fillna1 (toNumericCell c)

/-- Line 122: `weight_list = [1] * len(data_set)` when no weight source is
used. -/
def defaultWeights (n : Nat) : List PyNum := List.replicate n (PyNum.finite 1)

/-- Python `round(x, 2)` on an exact rational. -/
def pyRound2 (x : ℚ) : ℚ := (bankersRound (x * 100) : ℚ) / 100

/-- The spec's wording of the printed proportion:
`round(weighted_count / T * 100, 2)`, formatted with exactly two decimal
digits and a trailing percent sign. -/
def specProportionStr (x : ℚ) : String :=
  twoDecString (bankersRound (pyRound2 x * 100)) ++ "%"

/-- The ranking the spec asserts for the final table: NUMERIC proportion
value `count / T * 100` descending, token length descending as tie-break. -/
def numericallyRanked (T : ℚ) : List Row → Prop
  | [] => True
  | [_] => True
  | a :: b :: rest =>
      (a.count / T * 100 > b.count / T * 100 ∨
        (a.count / T * 100 = b.count / T * 100 ∧ b.tokenLength ≤ a.tokenLength)) ∧
      numericallyRanked T (b :: rest)

instance : ∀ (T : ℚ) (rows : List Row), Decidable (numericallyRanked T rows)
  | _, [] => .isTrue trivial
  | _, [_] => .isTrue trivial
  | T, _ :: b :: rest =>
      haveI := instDecidableNumericallyRanked T (b :: rest)
      inferInstanceAs (Decidable (_ ∧ _))

/-! ### Helper lemmas about the embedding -/

lemma char_eq_of_toNat_eq {c d : Char} (h : c.toNat = d.toNat) : c = d := by
  apply Char.ext
  apply UInt32.eq_of_toBitVec_eq
  apply BitVec.eq_of_toNat_eq
  exact h

lemma mem_runsAux (p : Char → Bool) (l : List Char) :
    ∀ (cur r : List Char), (∀ c ∈ cur, p c = true) →
      r ∈ runsAux p cur l → r ≠ [] ∧ ∀ c ∈ r, p c = true := by
  induction l with
  | nil =>
      intro cur r hcur hr
      unfold runsAux at hr
      by_cases h : cur = []
      · simp [h] at hr
      · rw [if_neg h] at hr
        rcases List.mem_singleton.mp hr with rfl
        refine ⟨by simpa using h, fun c hc => hcur c (List.mem_reverse.mp hc)⟩
  | cons c cs ih =>
      intro cur r hcur hr
      unfold runsAux at hr
      by_cases hp : p c = true
      · rw [if_pos hp] at hr
        refine ih (c :: cur) r ?_ hr
        intro d hd
        rcases List.mem_cons.mp hd with rfl | hd
        · exact hp
        · exact hcur d hd
      · rw [if_neg hp] at hr
        by_cases hc0 : cur = []
        · rw [if_pos hc0] at hr
          exact ih [] r (by simp) hr
        · rw [if_neg hc0] at hr
          rcases List.mem_cons.mp hr with rfl | hr
          · exact ⟨by simpa using hc0, fun d hd => hcur d (List.mem_reverse.mp hd)⟩
          · exact ih [] r (by simp) hr

lemma mem_findallRuns {p : Char → Bool} {s r : List Char} (hr : r ∈ findallRuns p s) :
    r ≠ [] ∧ ∀ c ∈ r, p c = true :=
  mem_runsAux p s [] r (by simp) hr

lemma mem_cjkSpansOfRun {m : List Char} {L : Nat} {w : List Char} :
    w ∈ cjkSpansOfRun m L ↔
      ∃ s e, s < e ∧ e ≤ m.length ∧ L ≤ e - s ∧ e - s ≤ 10 ∧
        w = (m.drop s).take (e - s) := by
  unfold cjkSpansOfRun pyRange
  simp only [List.mem_flatMap, List.mem_filterMap, List.mem_range, List.mem_range'_1]
  constructor
  · rintro ⟨s, hs, e, he, hf⟩
    split at hf
    · rcases Option.some_inj.mp hf with rfl
      refine ⟨s, e, by omega, by omega, ?_, by omega, rfl⟩
      have hlen : ((m.drop s).take (e - s)).length = e - s := by
        simp [List.length_take, List.length_drop]
        omega
      omega
    · exact absurd hf (by simp)
  · rintro ⟨s, e, hse, hel, hL, h10, rfl⟩
    have hlen : ((m.drop s).take (e - s)).length = e - s := by
      simp [List.length_take, List.length_drop]
      omega
    refine ⟨s, by omega, e, ⟨by omega, by omega⟩, ?_⟩
    rw [if_pos (by omega)]

lemma cjkSpan_facts {m : List Char} {L : Nat} {w : List Char}
    (h : w ∈ cjkSpansOfRun m L) :
    w ≠ [] ∧ L ≤ w.length ∧ w.length ≤ 10 ∧ ∀ c ∈ w, c ∈ m := by
  rcases mem_cjkSpansOfRun.mp h with ⟨s, e, hse, hel, hL, h10, rfl⟩
  have hlen : ((m.drop s).take (e - s)).length = e - s := by
    simp [List.length_take, List.length_drop]
    omega
  refine ⟨?_, by omega, by omega, ?_⟩
  · intro hnil
    rw [hnil] at hlen
    simp at hlen
    omega
  · intro c hc
    exact List.drop_subset s m (List.take_subset (e - s) (m.drop s) hc)

lemma addToken_mem_prop (P : String → Prop) :
    ∀ (acc : List Entry) (tok : String) (w : ℚ) (prov : String),
      (∀ e ∈ acc, P e.tok) → P tok →
      ∀ e ∈ addToken acc tok w prov, P e.tok := by
  intro acc
  induction acc with
  | nil =>
      intro tok w prov _ htok e he
      unfold addToken at he
      rcases List.mem_singleton.mp he with rfl
      exact htok
  | cons a as ih =>
      intro tok w prov hacc htok e he
      unfold addToken at he
      by_cases h : a.tok = tok
      · rw [if_pos h] at he
        rcases List.mem_cons.mp he with rfl | he
        · exact hacc a (List.mem_cons_self a as)
        · exact hacc e (List.mem_cons_of_mem a he)
      · rw [if_neg h] at he
        rcases List.mem_cons.mp he with rfl | he
        · exact hacc e (List.mem_cons_self e as)
        · exact ih tok w prov (fun x hx => hacc x (List.mem_cons_of_mem a hx)) htok e he

lemma addToken_mem_pos :
    ∀ (acc : List Entry) (tok : String) (w : ℚ) (prov : String),
      (∀ e ∈ acc, 0 < e.count) → 0 < w →
      ∀ e ∈ addToken acc tok w prov, 0 < e.count := by
  intro acc
  induction acc with
  | nil =>
      intro tok w prov _ hw e he
      unfold addToken at he
      rcases List.mem_singleton.mp he with rfl
      exact hw
  | cons a as ih =>
      intro tok w prov hacc hw e he
      unfold addToken at he
      by_cases h : a.tok = tok
      · rw [if_pos h] at he
        rcases List.mem_cons.mp he with rfl | he
        · have := hacc a (List.mem_cons_self a as)
          simpa using add_pos this hw
        · exact hacc e (List.mem_cons_of_mem a he)
      · rw [if_neg h] at he
        rcases List.mem_cons.mp he with rfl | he
        · exact hacc e (List.mem_cons_self e as)
        · exact ih tok w prov (fun x hx => hacc x (List.mem_cons_of_mem a hx)) hw e he

lemma foldTokens_mem_prop (P : String → Prop) :
    ∀ (pairs : List (String × String)) (w : ℚ) (acc : List Entry),
      (∀ e ∈ acc, P e.tok) → (∀ tp ∈ pairs, P tp.1) →
      ∀ e ∈ foldTokens w pairs acc, P e.tok := by
  intro pairs
  induction pairs with
  | nil => intro w acc hacc _ e he; exact hacc e he
  | cons tp tps ih =>
      intro w acc hacc hpairs e he
      unfold foldTokens at he
      simp only [List.foldl_cons] at he
      refine ih w (addToken acc tp.1 w tp.2) ?_ ?_ e he
      · exact addToken_mem_prop P acc tp.1 w tp.2 hacc (hpairs tp (List.mem_cons_self tp tps))
      · exact fun x hx => hpairs x (List.mem_cons_of_mem tp hx)

lemma foldTokens_mem_pos :
    ∀ (pairs : List (String × String)) (w : ℚ) (acc : List Entry),
      (∀ e ∈ acc, 0 < e.count) → 0 < w →
      ∀ e ∈ foldTokens w pairs acc, 0 < e.count := by
  intro pairs
  induction pairs with
  | nil => intro w acc hacc _ e he; exact hacc e he
  | cons tp tps ih =>
      intro w acc hacc hw e he
      unfold foldTokens at he
      simp only [List.foldl_cons] at he
      refine ih w (addToken acc tp.1 w tp.2) ?_ hw e he
      exact addToken_mem_pos acc tp.1 w tp.2 hacc hw

lemma aggregate_ok_prop (P : String → Prop) (pairsOf : String → List (String × String))
    (hP : ∀ line tp, tp ∈ pairsOf line → P tp.1) :
    ∀ (ds : List String) (ws : List ℚ) (acc acc2 : List Entry),
      (∀ e ∈ acc, P e.tok) →
      aggregate pairsOf ds ws acc = .ok acc2 →
      ∀ e ∈ acc2, P e.tok := by
  intro ds
  induction ds with
  | nil =>
      intro ws acc acc2 hacc h
      cases ws <;> (unfold aggregate at h; obtain rfl := Except.ok.inj h; exact hacc)
  | cons line rest ih =>
      intro ws acc acc2 hacc h
      cases ws with
      | nil => unfold aggregate at h; cases h
      | cons w ws =>
          unfold aggregate at h
          refine ih ws (foldTokens w (pairsOf line) acc) acc2 ?_ h
          exact foldTokens_mem_prop P (pairsOf line) w acc hacc (fun tp htp => hP line tp htp)

lemma aggregate_ok_pos {pairsOf : String → List (String × String)} :
    ∀ (ds : List String) (ws : List ℚ) (acc acc2 : List Entry),
      (∀ x ∈ ws, 0 < x) → (∀ e ∈ acc, 0 < e.count) →
      aggregate pairsOf ds ws acc = .ok acc2 →
      ∀ e ∈ acc2, 0 < e.count := by
  intro ds
  induction ds with
  | nil =>
      intro ws acc acc2 _ hacc h
      cases ws <;> (unfold aggregate at h; obtain rfl := Except.ok.inj h; exact hacc)
  | cons line rest ih =>
      intro ws acc acc2 hws hacc h
      cases ws with
      | nil => unfold aggregate at h; cases h
      | cons w ws =>
          unfold aggregate at h
          refine ih ws (foldTokens w (pairsOf line) acc) acc2
            (fun x hx => hws x (List.mem_cons_of_mem w hx)) ?_ h
          exact foldTokens_mem_pos (pairsOf line) w acc hacc
            (hws w (List.mem_cons_self w ws))

lemma aggregate_take {pairsOf : String → List (String × String)} :
    ∀ (ds : List String) (ws : List ℚ) (acc : List Entry),
      ds.length ≤ ws.length →
      aggregate pairsOf ds ws acc = aggregate pairsOf ds (ws.take ds.length) acc := by
  intro ds
  induction ds with
  | nil => intro ws acc _; cases ws <;> rfl
  | cons line rest ih =>
      intro ws acc hlen
      cases ws with
      | nil => simp at hlen
      | cons w ws =>
          simp only [List.length_cons, List.take_succ_cons]
          unfold aggregate
          exact ih ws (foldTokens w (pairsOf line) acc) (by simpa using hlen)

lemma aggregate_short {pairsOf : String → List (String × String)} :
    ∀ (ds : List String) (ws : List ℚ) (acc : List Entry),
      ws.length < ds.length →
      aggregate pairsOf ds ws acc = .error ("IndexError") := by
  intro ds
  induction ds with
  | nil => intro ws acc h; simp at h
  | cons line rest ih =>
      intro ws acc hlen
      cases ws with
      | nil => rfl
      | cons w ws =>
          unfold aggregate
          exact ih ws (foldTokens w (pairsOf line) acc) (by simpa using hlen)

lemma rowsOf_ok_mem {mk : Entry → Except String Row} :
    ∀ (l : List Entry) (rs : List Row), rowsOf mk l = .ok rs →
      ∀ r ∈ rs, ∃ e ∈ l, mk e = .ok r := by
  intro l
  induction l with
  | nil =>
      intro rs h r hr
      unfold rowsOf at h
      obtain rfl := Except.ok.inj h
      simp at hr
  | cons e es ih =>
      intro rs h r hr
      unfold rowsOf at h
      cases hmk : mk e with
      | error msg => rw [hmk] at h; cases h
      | ok r0 =>
          rw [hmk] at h
          cases hrec : rowsOf mk es with
          | error msg => rw [hrec] at h; cases h
          | ok rs0 =>
              rw [hrec] at h
              obtain rfl := Except.ok.inj h
              rcases List.mem_cons.mp hr with rfl | hr
              · exact ⟨e, List.mem_cons_self e es, hmk⟩
              · rcases ih rs0 hrec r hr with ⟨x, hx, hmkx⟩
                exact ⟨x, List.mem_cons_of_mem e hx, hmkx⟩

lemma chineseRow_ok {T : ℚ} {e : Entry} {r : Row} (h : chineseRow T e = .ok r) :
    r.tokenLength = r.token.length ∧ r.token = e.tok ∧ r.count = e.count ∧
      r.proportion = pyFormatPct (e.count / T * 100) ∧ r.lang = "中文" := by
  unfold chineseRow at h
  split at h
  · cases h
  · obtain rfl := Except.ok.inj h
    exact ⟨rfl, rfl, rfl, rfl, rfl⟩

lemma englishRow_ok {T : ℚ} {e : Entry} {r : Row} (h : englishRow T e = .ok r) :
    r.tokenLength = (pySplit r.token).length ∧ r.token = e.tok ∧ r.count = e.count ∧
      r.proportion = pyFormatPct (e.count / T * 100) ∧ r.lang = "英文" := by
  unfold englishRow at h
  split at h
  · cases h
  · obtain rfl := Except.ok.inj h
    exact ⟨rfl, rfl, rfl, rfl, rfl⟩

lemma process_chinese_ok {ds : List String} {ws : List ℚ} {T : ℚ} {L : Nat}
    {useSeg : Bool} {seg : String → List String} {rows : List Row}
    (h : process_chinese ds ws T L useSeg seg = .ok rows) :
    ∃ acc, aggregate (chineseLinePairs useSeg seg L) ds ws [] = .ok acc ∧
      rowsOf (chineseRow T) acc = .ok rows := by
  unfold process_chinese at h
  cases hagg : aggregate (chineseLinePairs useSeg seg L) ds ws [] with
  | error msg => rw [hagg] at h; cases h
  | ok acc => rw [hagg] at h; exact ⟨acc, rfl, h⟩

lemma process_english_ok {ds : List String} {ws : List ℚ} {T : ℚ} {M : Nat}
    {rows : List Row}
    (h : process_english ds ws T M = .ok rows) :
    ∃ acc, aggregate (englishLinePairs M) ds ws [] = .ok acc ∧
      rowsOf (englishRow T) acc = .ok rows := by
  unfold process_english at h
  cases hagg : aggregate (englishLinePairs M) ds ws [] with
  | error msg => rw [hagg] at h; cases h
  | ok acc => rw [hagg] at h; exact ⟨acc, rfl, h⟩

lemma analyze_ok {ds : List String} {ws : List ℚ} {L M : Nat} {useSeg : Bool}
    {seg : String → List String} {rows : List Row}
    (h : analyze ds ws L M useSeg seg = .ok rows) :
    ∃ c e, process_chinese ds ws ws.sum L useSeg seg = .ok c ∧
      process_english ds ws ws.sum M = .ok e ∧ rows = sortRows (c ++ e) := by
  unfold analyze at h
  cases hc : process_chinese ds ws ws.sum L useSeg seg with
  | error msg => rw [hc] at h; cases h
  | ok c =>
      rw [hc] at h
      cases he : process_english ds ws ws.sum M with
      | error msg => rw [he] at h; cases h
      | ok e =>
          rw [he] at h
          obtain rfl := Except.ok.inj h
          exact ⟨c, e, rfl, rfl, rfl⟩

lemma bankersRound_intCast (n : ℤ) : bankersRound (n : ℚ) = n := by
  unfold bankersRound
  simp only [Int.floor_intCast]
  have h0 : (n : ℚ) - n = 0 := by ring
  rw [h0]
  norm_num

lemma specProportionStr_eq (x : ℚ) : specProportionStr x = pyFormatPct x := by
  unfold specProportionStr pyRound2 pyFormatPct
  have h : ((bankersRound (x * 100) : ℚ) / 100) * 100 = (bankersRound (x * 100) : ℚ) := by
    field_simp
  rw [h, bankersRound_intCast]

lemma strLtB_irrefl : ∀ l : List Char, strLtB l l = false := by
  intro l
  induction l with
  | nil => rfl
  | cons c cs ih => unfold strLtB; simp [ih]

lemma strLtB_trans :
    ∀ a b c : List Char, strLtB a b = true → strLtB b c = true → strLtB a c = true := by
  intro a
  induction a with
  | nil =>
      intro b c hab hbc
      cases b with
      | nil => cases hab
      | cons d ds =>
          cases c with
          | nil => cases hbc
          | cons e es => rfl
  | cons x xs ih =>
      intro b c hab hbc
      cases b with
      | nil => cases hab
      | cons d ds =>
          cases c with
          | nil => cases hbc
          | cons e es =>
              unfold strLtB at hab hbc ⊢
              by_cases h1 : x.toNat < d.toNat
              · by_cases h2 : d.toNat < e.toNat
                · rw [if_pos (by omega)]
                · rw [if_pos h1] at hab
                  rw [if_neg h2] at hbc
                  by_cases h3 : e.toNat < d.toNat
                  · rw [if_pos h3] at hbc; cases hbc
                  · rw [if_pos (by omega)]
              · rw [if_neg h1] at hab
                by_cases h1' : d.toNat < x.toNat
                · rw [if_pos h1'] at hab; cases hab
                · rw [if_neg h1'] at hab
                  by_cases h2 : d.toNat < e.toNat
                  · rw [if_pos (by omega)]
                  · rw [if_neg h2] at hbc
                    by_cases h3 : e.toNat < d.toNat
                    · rw [if_pos h3] at hbc; cases hbc
                    · rw [if_neg h3] at hbc
                      rw [if_neg (by omega), if_neg (by omega)]
                      exact ih ds es hab hbc

lemma strLtB_trichotomy :
    ∀ a b : List Char, strLtB a b = true ∨ strLtB b a = true ∨ a = b := by
  intro a
  induction a with
  | nil =>
      intro b
      cases b with
      | nil => right; right; rfl
      | cons d ds => left; rfl
  | cons x xs ih =>
      intro b
      cases b with
      | nil => right; left; rfl
      | cons d ds =>
          unfold strLtB
          by_cases h1 : x.toNat < d.toNat
          · left; rw [if_pos h1]
          · by_cases h2 : d.toNat < x.toNat
            · right; left; rw [if_pos h2]
            · have hx : x = d := char_eq_of_toNat_eq (by omega)
              subst hx
              rcases ih ds with h | h | h
              · left; rw [if_neg h1, if_neg h2]; exact h
              · right; left; rw [if_neg h1, if_neg h2]; exact h
              · right; right; rw [h]

instance : IsTrans Row rowOrder := by
  constructor
  intro a b c hab hbc
  unfold rowOrder at hab hbc ⊢
  rcases hab with hab | ⟨hab, hlab⟩
  · rcases hbc with hbc | ⟨hbc, hlbc⟩
    · exact Or.inl (strLtB_trans _ _ _ hbc hab)
    · left; rw [← hbc]; exact hab
  · rcases hbc with hbc | ⟨hbc, hlbc⟩
    · left; rw [hab]; exact hbc
    · exact Or.inr ⟨hab.trans hbc, hlbc.trans hlab⟩

instance : IsTotal Row rowOrder := by
  constructor
  intro a b
  unfold rowOrder
  rcases strLtB_trichotomy b.proportion.toList a.proportion.toList with h | h | h
  · exact Or.inl (Or.inl h)
  · exact Or.inr (Or.inl h)
  · have hp : b.proportion = a.proportion := by
      apply String.ext
      exact h
    rcases Nat.le_total b.tokenLength a.tokenLength with hl | hl
    · exact Or.inl (Or.inr ⟨hp.symm, hl⟩)
    · exact Or.inr (Or.inr ⟨hp, hl⟩)

lemma sortRows_sorted (l : List Row) : List.Pairwise rowOrder (sortRows l) :=
  List.sorted_insertionSort rowOrder l

lemma mem_sortRows {l : List Row} {r : Row} : r ∈ sortRows l ↔ r ∈ l :=
  List.mem_insertionSort rowOrder

lemma chineseBrutePairs_tok {L : Nat} {line : String} {tp : String × String}
    (h : tp ∈ chineseBrutePairs L line) :
    tp.1.toList ≠ [] ∧ tp.1.length ≤ 10 ∧ ∀ c ∈ tp.1.toList, isCJK c = true := by
  unfold chineseBrutePairs at h
  rcases List.mem_flatMap.mp h with ⟨m, hm, htp⟩
  rcases List.mem_map.mp htp with ⟨wd, hwd, rfl⟩
  rcases cjkSpan_facts hwd with ⟨hne, _, h10, hsub⟩
  have hrun := mem_findallRuns hm
  refine ⟨hne, h10, ?_⟩
  intro c hc
  exact hrun.2 c (hsub c hc)

lemma string_toList_append (a b : String) : (a ++ b).toList = a.toList ++ b.toList := by
  show (a ++ b).data = a.data ++ b.data
  exact String.data_append a b

lemma joinBy_space_chars :
    ∀ (l : List String), (∀ w ∈ l, ∀ c ∈ w.toList, isLatin c = true) →
      ∀ c ∈ (joinBy (" ") l).toList, isLatin c = true ∨ c = ' ' := by
  intro l
  induction l with
  | nil => intro _ c hc; simp [joinBy] at hc
  | cons w ws ih =>
      intro hl c hc
      cases ws with
      | nil =>
          exact Or.inl (hl w (List.mem_singleton.mpr rfl) c hc)
      | cons v vs =>
          have hj : joinBy (" ") (w :: v :: vs) = w ++ " " ++ joinBy (" ") (v :: vs) := rfl
          rw [hj, string_toList_append, string_toList_append] at hc
          rcases List.mem_append.mp hc with hc | hc
          · rcases List.mem_append.mp hc with hc | hc
            · exact Or.inl (hl w (List.mem_cons_self w (v :: vs)) c hc)
            · right
              have : c ∈ [' '] := hc
              exact List.mem_singleton.mp this
          · exact ih (fun x hx => hl x (List.mem_cons_of_mem w hx)) c hc

lemma latinSpans_tok {words : List String} {M : Nat} {tok : String}
    (h : tok ∈ latinSpans words M) :
    ∃ sub : List String, (∀ w ∈ sub, w ∈ words) ∧ tok = joinBy (" ") sub := by
  unfold latinSpans at h
  rcases List.mem_flatMap.mp h with ⟨i, _, htok⟩
  rcases List.mem_map.mp htok with ⟨j, _, rfl⟩
  refine ⟨(words.drop i).take (j - i), ?_, rfl⟩
  intro w hw
  exact List.drop_subset i words (List.take_subset (j - i) (words.drop i) hw)

lemma englishWords_chars {line : String} {w : String} (h : w ∈ englishWords line) :
    ∀ c ∈ w.toList, isLatin c = true := by
  unfold englishWords at h
  rcases List.mem_map.mp h with ⟨run, hrun, rfl⟩
  exact (mem_findallRuns hrun).2

lemma englishLinePairs_tok {M : Nat} {line : String} {tp : String × String}
    (h : tp ∈ englishLinePairs M line) :
    ∀ c ∈ tp.1.toList, isLatin c = true ∨ c = ' ' := by
  unfold englishLinePairs at h
  rcases List.mem_map.mp h with ⟨tok, htok, rfl⟩
  rcases latinSpans_tok htok with ⟨sub, hsub, rfl⟩
  exact joinBy_space_chars sub (fun w hw => englishWords_chars (hsub w hw))

lemma cjk_latin_disjoint {s t : String}
    (hs : s.toList ≠ [] ∧ ∀ c ∈ s.toList, isCJK c = true)
    (ht : ∀ c ∈ t.toList, isLatin c = true ∨ c = ' ') : s ≠ t := by
  intro heq
  subst heq
  cases hls : s.toList with
  | nil => exact hs.1 hls
  | cons c cs =>
      have hc : c ∈ s.toList := by rw [hls]; exact List.mem_cons_self c cs
      have h1 := hs.2 c hc
      have h2 := ht c hc
      unfold isCJK at h1
      have h1' := of_decide_eq_true h1
      rcases h2 with h2 | h2
      · unfold isLatin at h2
        have h2' := of_decide_eq_true h2
        omega
      · subst h2
        revert h1'
        decide

lemma latinSpans_length_one :
    ∀ words : List String,
      (latinSpans words 1).length = words.length * (words.length + 1) / 2 := by
  have hsum : ∀ k : Nat, 2 * ((List.range k).map (fun i => k - i)).sum = k * (k + 1) := by
    intro k
    induction k with
    | zero => rfl
    | succ n ih =>
        rw [List.range_succ_eq_map]
        simp only [List.map_cons, List.map_map, List.sum_cons]
        have hcomp : ((fun i => n + 1 - i) ∘ Nat.succ) = fun i => n - i := by
          funext i
          simp [Function.comp, Nat.succ_sub_succ]
        rw [hcomp]
        have hr : (n + 1) * (n + 1 + 1) = n * (n + 1) + 2 * (n + 1) := by ring
        omega
  intro words
  unfold latinSpans pyRange
  rw [List.length_flatMap]
  simp only [Function.comp_def]
  have hmap : (List.range words.length).map
      (fun i => ((List.range' (i + 1) (words.length + 1 - (i + 1))).map
        (fun j => joinBy (" ") ((words.drop i).take (j - i)))).length) =
      (List.range words.length).map (fun i => words.length - i) := by
    apply List.map_congr_left
    intro i hi
    rw [List.length_map, List.length_range']
    omega
  rw [hmap]
  have := hsum words.length
  omega

/-! ### Claims -/

/-- C1 (counterexample): the combined result is NOT sorted by the numeric
proportion value. With records 呀, 哈, 马 and weights 10, 9, 81 (total 100),
the proportions are 10.00%, 9.00% and 81.00%; the code sorts the formatted
strings descending and yields the order 9.00%, 81.00%, 10.00%, which is not
numerically descending. -/
theorem sort_not_by_numeric_proportion :
    analyze ["呀", "哈", "马"] [10, 9, 81] 1 1 false (fun _ => []) =
      .ok [⟨1, "哈", 9, "9.00%", "中文", "哈"⟩,
           ⟨1, "马", 81, "81.00%", "中文", "马"⟩,
           ⟨1, "呀", 10, "10.00%", "中文", "呀"⟩] ∧
    ¬ numericallyRanked 100
        [⟨1, "哈", 9, "9.00%", "中文", "哈"⟩,
         ⟨1, "马", 81, "81.00%", "中文", "马"⟩,
         ⟨1, "呀", 10, "10.00%", "中文", "呀"⟩] ∧
    ([(10 : ℚ), 9, 81] : List ℚ).sum = 100 :=
  ⟨by rfl, by decide, by rfl⟩

/-- C1 (amended): the combined result sequence (CJK rows concatenated with
Latin rows) is sorted by the FORMATTED PROPORTION STRING in descending
lexicographic order, with token length descending as tie-break; rows tied on
both keys may appear in any relative order. -/
theorem sorted_by_proportion_string_then_length
    (ds : List String) (ws : List ℚ) (L M : Nat) (useSeg : Bool)
    (seg : String → List String) (rows : List Row)
    (h : analyze ds ws L M useSeg seg = .ok rows) :
    List.Pairwise rowOrder rows := by
  rcases analyze_ok h with ⟨c, e, _, _, rfl⟩
  exact sortRows_sorted (c ++ e)

/-- C1 (witness): the amended sortedness at a concrete input. -/
theorem sorted_by_proportion_string_then_length_witness :
    List.Pairwise rowOrder
      [⟨1, "哈", 9, "9.00%", "中文", "哈"⟩,
       ⟨1, "马", 81, "81.00%", "中文", "马"⟩,
       ⟨1, "呀", 10, "10.00%", "中文", "呀"⟩] :=
  sorted_by_proportion_string_then_length ["呀", "哈", "马"] [10, 9, 81] 1 1 false
    (fun _ => [])
    [⟨1, "哈", 9, "9.00%", "中文", "哈"⟩,
     ⟨1, "马", 81, "81.00%", "中文", "马"⟩,
     ⟨1, "呀", 10, "10.00%", "中文", "呀"⟩] (by rfl)

/-- C2 (counterexample): a weighted count can exceed the total weight, because
every OCCURRENCE POSITION of a token in a record adds the record's weight. On
the single-record run 呀呀呀 with weight 1 (plus a weight-0 record 好好) the
token 呀呀 occurs at two positions, so its count is 2 while T = 1, and its
printed proportion is 200.00%; the weight-0 record also yields a row with
count 0, refuting 0 < weighted_count in general. -/
theorem weighted_count_can_exceed_total :
    process_chinese ["呀呀呀", "好好"] [1, 0] 1 2 false (fun _ => []) =
      .ok [⟨2, "呀呀", 2, "200.00%", "中文", "呀呀呀"⟩,
           ⟨3, "呀呀呀", 1, "100.00%", "中文", "呀呀呀"⟩,
           ⟨2, "好好", 0, "0.00%", "中文", "好好"⟩] ∧
    ([(1 : ℚ), 0] : List ℚ).sum = 1 ∧ ¬ ((2 : ℚ) ≤ 1) ∧ ¬ ((0 : ℚ) < 0) :=
  ⟨by rfl, by rfl, by decide, by decide⟩

/-- C2 (amended): when every resolved weight is positive, every result row has
0 < weighted_count (the count may exceed T), and the printed proportion equals
round(weighted_count / T * 100, 2) formatted with exactly two decimal digits
and a trailing percent sign. -/
theorem rows_positive_count_and_rounded_format
    (ds : List String) (ws : List ℚ) (L M : Nat) (useSeg : Bool)
    (seg : String → List String) (rows : List Row)
    (hw : ∀ x ∈ ws, 0 < x) (h : analyze ds ws L M useSeg seg = .ok rows) :
    ∀ r ∈ rows, 0 < r.count ∧
      r.proportion = specProportionStr (r.count / ws.sum * 100) := by
  rcases analyze_ok h with ⟨c, e, hc, he, rfl⟩
  intro r hr
  rw [mem_sortRows] at hr
  rw [specProportionStr_eq]
  rcases List.mem_append.mp hr with hr | hr
  · rcases process_chinese_ok hc with ⟨acc, hagg, hrows⟩
    rcases rowsOf_ok_mem acc _ hrows r hr with ⟨e0, he0, hmk⟩
    rcases chineseRow_ok hmk with ⟨_, _, hcount, hprop, _⟩
    have hpos := aggregate_ok_pos ds ws [] acc hw (by simp) hagg e0 he0
    exact ⟨by rw [hcount]; exact hpos, by rw [hprop, hcount]⟩
  · rcases process_english_ok he with ⟨acc, hagg, hrows⟩
    rcases rowsOf_ok_mem acc _ hrows r hr with ⟨e0, he0, hmk⟩
    rcases englishRow_ok hmk with ⟨_, _, hcount, hprop, _⟩
    have hpos := aggregate_ok_pos ds ws [] acc hw (by simp) hagg e0 he0
    exact ⟨by rw [hcount]; exact hpos, by rw [hprop, hcount]⟩

/-- C2 (witness): the amended row invariant at a concrete input. -/
theorem rows_positive_count_and_rounded_format_witness :
    0 < (⟨4, "我爱学习", 1, "100.00%", "中文", "我爱学习"⟩ : Row).count ∧
      (⟨4, "我爱学习", 1, "100.00%", "中文", "我爱学习"⟩ : Row).proportion =
        specProportionStr
          ((⟨4, "我爱学习", 1, "100.00%", "中文", "我爱学习"⟩ : Row).count /
            ([(1 : ℚ)] : List ℚ).sum * 100) :=
  rows_positive_count_and_rounded_format ["我爱学习"] [1] 3 1 false (fun _ => [])
    [⟨4, "我爱学习", 1, "100.00%", "中文", "我爱学习"⟩,
     ⟨3, "我爱学", 1, "100.00%", "中文", "我爱学习"⟩,
     ⟨3, "爱学习", 1, "100.00%", "中文", "我爱学习"⟩]
    (by decide) (by rfl)
    ⟨4, "我爱学习", 1, "100.00%", "中文", "我爱学习"⟩ (by decide)

/-- C3 (confirmed): in brute-force mode, the candidate CJK tokens of a run are
exactly the contiguous substrings with end - start ≥ L and end - start ≤ 10,
and consequently every CJK token in the output has length at most 10,
regardless of L. -/
theorem cjk_tokens_are_bounded_window_spans :
    (∀ (m : List Char) (L : Nat) (w : List Char),
        w ∈ cjkSpansOfRun m L ↔
          ∃ s e, s < e ∧ e ≤ m.length ∧ L ≤ e - s ∧ e - s ≤ 10 ∧
            w = (m.drop s).take (e - s)) ∧
    (∀ (ds : List String) (ws : List ℚ) (T : ℚ) (L : Nat)
        (seg : String → List String) (rows : List Row),
        process_chinese ds ws T L false seg = .ok rows →
        ∀ r ∈ rows, r.token.length ≤ 10) := by
  constructor
  · intro m L w
    exact mem_cjkSpansOfRun
  · intro ds ws T L seg rows h r hr
    rcases process_chinese_ok h with ⟨acc, hagg, hrows⟩
    rcases rowsOf_ok_mem acc rows hrows r hr with ⟨e0, he0, hmk⟩
    rcases chineseRow_ok hmk with ⟨_, htok, _, _, _⟩
    have hP : ∀ e ∈ acc, e.tok.length ≤ 10 := by
      refine aggregate_ok_prop (fun t => t.length ≤ 10)
        (chineseLinePairs false seg L) ?_ ds ws [] acc (by simp) hagg
      intro line tp htp
      exact (chineseBrutePairs_tok (by simpa [chineseLinePairs] using htp)).2.1
    rw [htok]
    exact hP e0 he0

/-- C3 (witness): the length bound at a concrete input. -/
theorem cjk_tokens_are_bounded_window_spans_witness :
    (⟨1, "好", 1, "100.00%", "中文", "好"⟩ : Row).token.length ≤ 10 :=
  cjk_tokens_are_bounded_window_spans.2 ["好"] [1] 1 1 (fun _ => [])
    [⟨1, "好", 1, "100.00%", "中文", "好"⟩] (by rfl)
    ⟨1, "好", 1, "100.00%", "中文", "好"⟩ (by decide)

/-- C4 (confirmed): all ASCII-alphabetic words of a record form one flat
ordered sequence before span enumeration, so with min word count 1 a record
with k words yields exactly k * (k + 1) / 2 span occurrences (with
multiplicity, before dedup), and spans may cross run boundaries: the record
ab1cd (runs ab and cd, separated by a digit) yields the span ab cd. -/
theorem latin_spans_cross_runs_and_count :
    (∀ line : String,
        (latinSpans (englishWords line) 1).length =
          (englishWords line).length * ((englishWords line).length + 1) / 2) ∧
    process_english ["ab1cd"] [1] 1 1 =
      .ok [⟨1, "ab", 1, "100.00%", "英文", "ab cd"⟩,
           ⟨2, "ab cd", 1, "100.00%", "英文", "ab cd"⟩,
           ⟨1, "cd", 1, "100.00%", "英文", "ab cd"⟩] :=
  ⟨fun line => latinSpans_length_one (englishWords line), by rfl⟩

/-- C5 (confirmed): the record 我爱学习 with min length 3, brute force and
weight 1 yields exactly the tokens 我爱学, 我爱学习 and 爱学习, each with
weighted count 1 and printed proportion 100.00% of total weight 1. -/
theorem scenario_brute_force_min3 :
    process_chinese ["我爱学习"] [1] 1 3 false (fun _ => []) =
      .ok [⟨3, "我爱学", 1, "100.00%", "中文", "我爱学习"⟩,
           ⟨4, "我爱学习", 1, "100.00%", "中文", "我爱学习"⟩,
           ⟨3, "爱学习", 1, "100.00%", "中文", "我爱学习"⟩] := by rfl

/-- C6 (counterexample): a raw weight that parses to a NON-FINITE number is
NOT mapped to 1.0: pd.to_numeric parses the string inf to positive infinity,
which is not NaN, so fillna(1) keeps it. -/
theorem nonfinite_weight_not_defaulted :
    resolveWeights [some "inf"] = [PyNum.posInf] ∧
      PyNum.posInf ≠ PyNum.finite 1 :=
  ⟨by rfl, by decide⟩

/-- C6 (amended): the weight resolver parses each raw value; a parse failure,
a missing value, or a NaN parse result maps to 1.0 (an infinite parse result
is kept as is); the column 2, bad, empty resolves to 2.0, 1.0, 1.0; with no
weight source every weight is 1.0; no NaN survives resolution. -/
theorem weight_resolver_defaults :
    resolveWeights [some "2", some "bad", some ""] =
      [PyNum.finite 2, PyNum.finite 1, PyNum.finite 1] ∧
    (∀ n : Nat, defaultWeights n = List.replicate n (PyNum.finite 1)) ∧
    (∀ col : List (Option String), PyNum.nan ∉ resolveWeights col) ∧
    (∀ c : Option String, toNumericCell c = PyNum.nan →
      fillna1 (toNumericCell c) = PyNum.finite 1) := by
  refine ⟨by rfl, fun n => rfl, ?_, ?_⟩
  · intro col hmem
    rcases List.mem_map.mp hmem with ⟨c, _, hc⟩
    unfold fillna1 at hc
    by_cases hv : toNumericCell c = PyNum.nan
    · rw [if_pos hv] at hc
      cases hc
    · rw [if_neg hv] at hc
      exact hv hc
  · intro c hc
    unfold fillna1
    rw [if_pos hc]

/-- C6 (witness): the defaulting contract at a concrete failing cell. -/
theorem weight_resolver_defaults_witness :
    toNumericCell (some "bad") = PyNum.nan ∧
      fillna1 (toNumericCell (some "bad")) = PyNum.finite 1 :=
  ⟨by rfl, weight_resolver_defaults.2.2.2 (some "bad") (by rfl)⟩

/-- C7 (counterexample): a weight sequence LONGER than the record sequence is
not rejected: the analysis succeeds and silently ignores the extra weight
(here the record 好好好 is processed with weight 1 while the extra weight 5
only inflates the denominator passed by the caller). -/
theorem longer_weights_silently_truncated :
    process_chinese ["好好好"] [1, 5] 6 3 false (fun _ => []) =
      .ok [⟨3, "好好好", 1, "16.67%", "中文", "好好好"⟩] ∧
    (["好好好"] : List String).length ≠ ([(1 : ℚ), 5] : List ℚ).length :=
  ⟨by rfl, by decide⟩

/-- C7 (amended): no length check is performed. A weight sequence at least as
long as the record sequence is silently truncated to the record count; a
shorter weight sequence makes processing fail with IndexError only when the
first unweighted record is reached, not before any processing. -/
theorem no_length_check_truncate_or_index_error
    (ds : List String) (ws : List ℚ) (T : ℚ) (L M : Nat) (useSeg : Bool)
    (seg : String → List String) :
    (ds.length ≤ ws.length →
      process_chinese ds ws T L useSeg seg =
        process_chinese ds (ws.take ds.length) T L useSeg seg ∧
      process_english ds ws T M = process_english ds (ws.take ds.length) T M) ∧
    (ws.length < ds.length →
      process_chinese ds ws T L useSeg seg = .error ("IndexError") ∧
      process_english ds ws T M = .error ("IndexError")) := by
  constructor
  · intro hlen
    constructor
    · unfold process_chinese
      rw [aggregate_take ds ws [] hlen]
    · unfold process_english
      rw [aggregate_take ds ws [] hlen]
  · intro hlen
    constructor
    · unfold process_chinese
      rw [aggregate_short ds ws [] hlen]
    · unfold process_english
      rw [aggregate_short ds ws [] hlen]

/-- C7 (witness): silent truncation at a concrete mismatched input. -/
theorem no_length_check_truncate_or_index_error_witness :
    process_chinese ["好好好"] [1, 5] 6 3 false (fun _ => []) =
      process_chinese ["好好好"] (([(1 : ℚ), 5] : List ℚ).take 1) 6 3 false
        (fun _ => []) :=
  ((no_length_check_truncate_or_index_error ["好好好"] [1, 5] 6 3 1 false
      (fun _ => [])).1 (by decide)).1

/-- C8 (confirmed): when the total weight T is 0 and at least one qualifying
token was accumulated, the projection loop raises ZeroDivisionError instead of
emitting NaN or Inf proportion values. -/
theorem zero_total_weight_division_error
    (ds : List String) (ws : List ℚ) (L M : Nat) (useSeg : Bool)
    (seg : String → List String) (accC accE : List Entry) :
    (aggregate (chineseLinePairs useSeg seg L) ds ws [] = .ok accC → accC ≠ [] →
      process_chinese ds ws 0 L useSeg seg = .error ("ZeroDivisionError")) ∧
    (aggregate (englishLinePairs M) ds ws [] = .ok accE → accE ≠ [] →
      process_english ds ws 0 M = .error ("ZeroDivisionError")) := by
  constructor
  · intro hagg hne
    unfold process_chinese
    rw [hagg]
    cases accC with
    | nil => exact absurd rfl hne
    | cons e es => rfl
  · intro hagg hne
    unfold process_english
    rw [hagg]
    cases accE with
    | nil => exact absurd rfl hne
    | cons e es => rfl

/-- C8 (witness): the division failure at a concrete all-zero-weight input. -/
theorem zero_total_weight_division_error_witness :
    process_chinese ["好好好"] [0] 0 3 false (fun _ => []) =
      .error ("ZeroDivisionError") :=
  (zero_total_weight_division_error ["好好好"] [0] 3 1 false (fun _ => [])
      [⟨"好好好", 0, ["好好好"]⟩] []).1 (by rfl) (by decide)

/-- C9 (counterexample): in external-segmenter mode the two accumulators CAN
share a key. A segmenter satisfying the collaborator contract may return
Latin-letter tokens (as jieba does on Latin text); with the record love and a
segmenter returning the record itself, the token love is tracked in BOTH the
CJK-side map and the Latin map. -/
theorem segmenter_mode_key_collision :
    process_chinese ["love"] [1] 1 1 true (fun line => [line]) =
      .ok [⟨4, "love", 1, "100.00%", "中文", "love"⟩] ∧
    process_english ["love"] [1] 1 1 =
      .ok [⟨1, "love", 1, "100.00%", "英文", "love"⟩] ∧
    (⟨4, "love", 1, "100.00%", "中文", "love"⟩ : Row).token =
      (⟨1, "love", 1, "100.00%", "英文", "love"⟩ : Row).token :=
  ⟨by rfl, by rfl, by rfl⟩

/-- C9 (amended): in BRUTE-FORCE mode the key sets are disjoint by
construction: every CJK token is a nonempty string of CJK ideographs while
every Latin token consists of ASCII letters and spaces, so no token text is
tracked in both maps. -/
theorem brute_force_maps_disjoint
    (ds dsE : List String) (wsC wsE : List ℚ) (TC TE : ℚ) (L M : Nat)
    (seg : String → List String) (rowsC rowsE : List Row)
    (hc : process_chinese ds wsC TC L false seg = .ok rowsC)
    (he : process_english dsE wsE TE M = .ok rowsE) :
    ∀ rc ∈ rowsC, ∀ re ∈ rowsE, rc.token ≠ re.token := by
  intro rc hrc re hre
  rcases process_chinese_ok hc with ⟨accC, haggC, hrowsC⟩
  rcases process_english_ok he with ⟨accE, haggE, hrowsE⟩
  rcases rowsOf_ok_mem accC rowsC hrowsC rc hrc with ⟨eC, heC, hmkC⟩
  rcases rowsOf_ok_mem accE rowsE hrowsE re hre with ⟨eE, heE, hmkE⟩
  rcases chineseRow_ok hmkC with ⟨_, htokC, _, _, _⟩
  rcases englishRow_ok hmkE with ⟨_, htokE, _, _, _⟩
  have hPC : ∀ e ∈ accC, e.tok.toList ≠ [] ∧ ∀ c ∈ e.tok.toList, isCJK c = true := by
    refine aggregate_ok_prop
      (fun t => t.toList ≠ [] ∧ ∀ c ∈ t.toList, isCJK c = true)
      (chineseLinePairs false seg L) ?_ ds wsC [] accC (by simp) haggC
    intro line tp htp
    have h := chineseBrutePairs_tok (by simpa [chineseLinePairs] using htp)
    exact ⟨h.1, h.2.2⟩
  have hPE : ∀ e ∈ accE, ∀ c ∈ e.tok.toList, isLatin c = true ∨ c = ' ' := by
    refine aggregate_ok_prop
      (fun t => ∀ c ∈ t.toList, isLatin c = true ∨ c = ' ')
      (englishLinePairs M) ?_ dsE wsE [] accE (by simp) haggE
    intro line tp htp
    exact englishLinePairs_tok htp
  rw [htokC, htokE]
  exact cjk_latin_disjoint (hPC eC heC) (hPE eE heE)

/-- C9 (witness): disjointness at a concrete input containing both scripts. -/
theorem brute_force_maps_disjoint_witness :
    (⟨1, "好", 1, "100.00%", "中文", "好"⟩ : Row).token ≠
      (⟨1, "ab", 1, "100.00%", "英文", "ab cd"⟩ : Row).token :=
  brute_force_maps_disjoint ["好"] ["ab1cd"] [1] [1] 1 1 1 1 (fun _ => [])
    [⟨1, "好", 1, "100.00%", "中文", "好"⟩]
    [⟨1, "ab", 1, "100.00%", "英文", "ab cd"⟩,
     ⟨2, "ab cd", 1, "100.00%", "英文", "ab cd"⟩,
     ⟨1, "cd", 1, "100.00%", "英文", "ab cd"⟩]
    (by rfl) (by rfl)
    ⟨1, "好", 1, "100.00%", "中文", "好"⟩ (by decide)
    ⟨1, "ab", 1, "100.00%", "英文", "ab cd"⟩ (by decide)

/-- C10 (confirmed): the token length column means characters for CJK rows
(len of the token string) and space-separated words for Latin rows (len of
word.split()), two different meanings per language class. -/
theorem token_length_chars_vs_words
    (ds : List String) (ws : List ℚ) (T : ℚ) (L M : Nat) (useSeg : Bool)
    (seg : String → List String) (rowsC rowsE : List Row)
    (hc : process_chinese ds ws T L useSeg seg = .ok rowsC)
    (he : process_english ds ws T M = .ok rowsE) :
    (∀ r ∈ rowsC, r.tokenLength = r.token.length) ∧
    (∀ r ∈ rowsE, r.tokenLength = (pySplit r.token).length) := by
  constructor
  · intro r hr
    rcases process_chinese_ok hc with ⟨acc, _, hrows⟩
    rcases rowsOf_ok_mem acc rowsC hrows r hr with ⟨e0, _, hmk⟩
    exact (chineseRow_ok hmk).1
  · intro r hr
    rcases process_english_ok he with ⟨acc, _, hrows⟩
    rcases rowsOf_ok_mem acc rowsE hrows r hr with ⟨e0, _, hmk⟩
    exact (englishRow_ok hmk).1

/-- C10 (witness): for the Latin row ab cd the length column is 2 (its word
count), not 5 (its character count). -/
theorem token_length_chars_vs_words_witness :
    (⟨2, "ab cd", 1, "100.00%", "英文", "ab cd"⟩ : Row).tokenLength =
      (pySplit (⟨2, "ab cd", 1, "100.00%", "英文", "ab cd"⟩ : Row).token).length ∧
    (⟨2, "ab cd", 1, "100.00%", "英文", "ab cd"⟩ : Row).token.length ≠ 2 :=
  ⟨(token_length_chars_vs_words ["ab1cd"] [1] 1 1 1 false (fun _ => []) []
      [⟨1, "ab", 1, "100.00%", "英文", "ab cd"⟩,
       ⟨2, "ab cd", 1, "100.00%", "英文", "ab cd"⟩,
       ⟨1, "cd", 1, "100.00%", "英文", "ab cd"⟩]
      (by rfl) (by rfl)).2
    ⟨2, "ab cd", 1, "100.00%", "英文", "ab cd"⟩ (by decide), by decide⟩

end Zhanbi
